import Mathlib

/-!
# GCS block filter: a shallow embedding

A verification development for the Golomb-Coded Set (GCS) block filter
exposed by the `lbrycrd_cpp_bindings` layer.  The binding code
(`block_filter.cpp`, `block_filter.h`, `lbrycrd.cpp`) is embedded from its
source; the filter engine it delegates to (`GCSFilter`, the per-block
`BlockFilter` wrapper) is not part of the source tree and is modelled from
the specification of the engine.

Machine integers are embedded as `Nat` with explicit reduction `% 2 ^ 64`
where 64-bit overflow matters.  Byte-strings are `List Nat` (each entry a
byte value), bitstreams are `List Bool`.
-/

/-! ## 64-bit primitives -/

/-- Addition of two 64-bit words, wrapping modulo `2 ^ 64`. -/
def add64 (a b : Nat) : Nat := (a + b) % 2 ^ 64

/-- Left rotation of a 64-bit word by `n` places. -/
def rotl64 (x n : Nat) : Nat :=
  ((x <<< n) ||| (x >>> (64 - n))) % 2 ^ 64

/-! ## SipHash-2-4

Modelled from the spec: the keyed hash of §4.1 ("a SipHash-family keyed
hash is required for cross-implementation compatibility"); the concrete
SipHash-2-4 routine used by the reference engine is not under the source
tree, so it is reproduced here from the standard algorithm the spec
refers to.  -/

/-- The four 64-bit state words of the SipHash mixing function. -/
structure SipState where
  v0 : Nat
  v1 : Nat
  v2 : Nat
  v3 : Nat
deriving Repr, DecidableEq

/-- Modelled from the spec: one SIPROUND of the SipHash mixing function. -/
def sipRound (s : SipState) : SipState :=
  let a0 := add64 s.v0 s.v1
  let b1 := rotl64 s.v1 13
  let c1 := b1 ^^^ a0
  let a1 := rotl64 a0 32
  let a2 := add64 s.v2 s.v3
  let b3 := rotl64 s.v3 16
  let c3 := b3 ^^^ a2
  let d0 := add64 a1 c3
  let d3 := rotl64 c3 21
  let e3 := d3 ^^^ d0
  let d2 := add64 a2 c1
  let e1 := rotl64 c1 17
  let f1 := e1 ^^^ d2
  let e2 := rotl64 d2 32
  ⟨d0, f1, e2, e3⟩

/-- Modelled from the spec: absorb one 64-bit message word
(xor into `v3`, two rounds, xor into `v0`). -/
def sipCompress (s : SipState) (w : Nat) : SipState :=
  let s1 : SipState := ⟨s.v0, s.v1, s.v2, s.v3 ^^^ w⟩
  let s2 := sipRound (sipRound s1)
  ⟨s2.v0 ^^^ w, s2.v1, s2.v2, s2.v3⟩

/-- Modelled from the spec: the SipHash initial state for keys `k0`, `k1`. -/
def sipInit (k0 k1 : Nat) : SipState :=
  ⟨0x736f6d6570736575 ^^^ (k0 % 2 ^ 64),
   0x646f72616e646f6d ^^^ (k1 % 2 ^ 64),
   0x6c7967656e657261 ^^^ (k0 % 2 ^ 64),
   0x7465646279746573 ^^^ (k1 % 2 ^ 64)⟩

/-- A little-endian 64-bit word from at most eight bytes. -/
def leWord (chunk : List Nat) : Nat :=
  chunk.foldr (fun b acc => acc * 256 + b % 256) 0

/-- The complete little-endian 8-byte words of a message. -/
def sipWords : List Nat → List Nat
  | b0 :: b1 :: b2 :: b3 :: b4 :: b5 :: b6 :: b7 :: rest =>
    leWord [b0, b1, b2, b3, b4, b5, b6, b7] :: sipWords rest
  | _ => []

/-- The trailing partial word (fewer than eight bytes) of a message. -/
def sipTail (m : List Nat) : List Nat :=
  m.drop (m.length / 8 * 8)

/-- Modelled from the spec: the full SipHash-2-4 keyed 64-bit hash of a
byte-string, as used by the engine of §4.1. -/
def sipHash (k0 k1 : Nat) (m : List Nat) : Nat :=
  let s := (sipWords m).foldl sipCompress (sipInit k0 k1)
  let b := leWord (sipTail m) + m.length % 256 * 2 ^ 56
  let s1 := sipCompress s b
  let s2 : SipState := ⟨s1.v0, s1.v1, s1.v2 ^^^ 0xff, s1.v3⟩
  let s3 := sipRound (sipRound (sipRound (sipRound s2)))
  (s3.v0 ^^^ s3.v1 ^^^ s3.v2 ^^^ s3.v3) % 2 ^ 64

/-! ## Hashing and range reduction (§4.1) -/

/-- Modelled from the spec: `hash_to_range` reduces the 64-bit keyed hash
into `[0, modulus)` by the multiply-high-bits reduction
`(hash * modulus) >> 64`, not `hash % modulus`. -/
def hashToRange (k0 k1 modulus : Nat) (e : List Nat) : Nat :=
  sipHash k0 k1 e * modulus / 2 ^ 64

/-! ## Filter parameters (§3) -/

/-- The immutable construction parameters of a filter (§3). -/
structure FilterParams where
  k0 : Nat
  k1 : Nat
  P : Nat
  M : Nat
deriving Repr, DecidableEq

/-- Validity of the parameters: `1 ≤ P ≤ 32` and `M ≥ 1` (§3). -/
def FilterParams.Valid (p : FilterParams) : Prop :=
  1 ≤ p.P ∧ p.P ≤ 32 ∧ 1 ≤ p.M

instance (p : FilterParams) : Decidable p.Valid := by
  unfold FilterParams.Valid
  infer_instance

/-! ## Fixed-width bit fields (MSB first) -/

/-- The low `n` bits of `x`, most significant first. -/
def toBitsMSB : Nat → Nat → List Bool
  | 0, _ => []
  | n + 1, x => decide (x / 2 ^ n % 2 = 1) :: toBitsMSB n x

/-- The value of a bit-list read most significant bit first. -/
def fromBitsMSB (bs : List Bool) : Nat :=
  bs.foldl (fun acc b => 2 * acc + (if b then 1 else 0)) 0

theorem length_toBitsMSB (n x : Nat) : (toBitsMSB n x).length = n := by
  induction n generalizing x with
  | zero => rfl
  | succ k ih => simp [toBitsMSB, ih]

theorem mod_two_pow_succ (x n : Nat) :
    x % 2 ^ (n + 1) = x / 2 ^ n % 2 * 2 ^ n + x % 2 ^ n := by
  have h0 : 0 < 2 ^ n := Nat.pos_pow_of_pos n (by omega)
  have hq := Nat.div_add_mod x (2 ^ n)
  have hq2 := Nat.div_add_mod (x / 2 ^ n) 2
  have hlt : x % 2 ^ n < 2 ^ n := Nat.mod_lt _ h0
  have hlt2 : x / 2 ^ n % 2 < 2 := Nat.mod_lt _ (by omega)
  have hpow : 2 ^ (n + 1) = 2 ^ n * 2 := by ring
  have key : x = 2 ^ (n + 1) * (x / 2 ^ n / 2) + (x / 2 ^ n % 2 * 2 ^ n + x % 2 ^ n) := by
    rw [hpow]
    nlinarith [hq, hq2]
  calc x % 2 ^ (n + 1)
      = (2 ^ (n + 1) * (x / 2 ^ n / 2) + (x / 2 ^ n % 2 * 2 ^ n + x % 2 ^ n)) % 2 ^ (n + 1) := by
        rw [← key]
    _ = (x / 2 ^ n % 2 * 2 ^ n + x % 2 ^ n) % 2 ^ (n + 1) := by
        rw [Nat.mul_add_mod]
    _ = x / 2 ^ n % 2 * 2 ^ n + x % 2 ^ n := by
        apply Nat.mod_eq_of_lt
        rw [hpow]
        nlinarith

/-- Generalized evaluation of `fromBitsMSB` over `toBitsMSB`. -/
theorem foldl_toBitsMSB (n x acc : Nat) :
    List.foldl (fun a b => 2 * a + (if b then 1 else 0)) acc (toBitsMSB n x)
      = acc * 2 ^ n + x % 2 ^ n := by
  induction n generalizing acc with
  | zero => simp [toBitsMSB, Nat.mod_one]
  | succ k ih =>
    simp only [toBitsMSB, List.foldl_cons]
    rw [ih]
    have hbit : (if decide (x / 2 ^ k % 2 = 1) = true then 1 else 0) = x / 2 ^ k % 2 := by
      have : x / 2 ^ k % 2 < 2 := Nat.mod_lt _ (by omega)
      by_cases h : x / 2 ^ k % 2 = 1
      · simp [h]
      · simp [h]
        omega
    rw [hbit, mod_two_pow_succ x k]
    ring

theorem fromBitsMSB_toBitsMSB (n x : Nat) :
    fromBitsMSB (toBitsMSB n x) = x % 2 ^ n := by
  unfold fromBitsMSB
  rw [foldl_toBitsMSB]
  simp

theorem toBitsMSB_congr (n : Nat) : ∀ x y : Nat, x % 2 ^ n = y % 2 ^ n →
    toBitsMSB n x = toBitsMSB n y := by
  induction n with
  | zero => intro x y _; rfl
  | succ k ih =>
    intro x y h
    have hdvd : (2 : Nat) ^ k ∣ 2 ^ (k + 1) := pow_dvd_pow 2 (by omega)
    have heqlow : x % 2 ^ k = y % 2 ^ k := by
      have hmm : x % 2 ^ (k + 1) % 2 ^ k = y % 2 ^ (k + 1) % 2 ^ k := by rw [h]
      rwa [Nat.mod_mod_of_dvd _ hdvd, Nat.mod_mod_of_dvd _ hdvd] at hmm
    have hx := mod_two_pow_succ x k
    have hy := mod_two_pow_succ y k
    have hsum : x / 2 ^ k % 2 * 2 ^ k + x % 2 ^ k = y / 2 ^ k % 2 * 2 ^ k + x % 2 ^ k := by
      rw [heqlow] at hx ⊢
      rw [← hx, h, hy]
    have heqbit : x / 2 ^ k % 2 = y / 2 ^ k % 2 :=
      Nat.eq_of_mul_eq_mul_right (pow_pos (by omega) k) (Nat.add_right_cancel hsum)
    simp only [toBitsMSB, heqbit, ih x y heqlow]

/-- Generalized accumulator form of `fromBitsMSB`. -/
theorem foldl_fromBitsMSB (l : List Bool) : ∀ acc : Nat,
    List.foldl (fun a c => 2 * a + (if c then 1 else 0)) acc l
      = acc * 2 ^ l.length + fromBitsMSB l := by
  induction l with
  | nil => intro acc; simp [fromBitsMSB]
  | cons c t ih =>
    intro acc
    simp only [List.foldl_cons, List.length_cons, fromBitsMSB]
    rw [ih, ih (2 * 0 + (if c then 1 else 0))]
    ring

/-- Evaluation of `fromBitsMSB` over a cons. -/
theorem fromBitsMSB_cons (b : Bool) (bs : List Bool) :
    fromBitsMSB (b :: bs) = (if b then 1 else 0) * 2 ^ bs.length + fromBitsMSB bs := by
  unfold fromBitsMSB
  simp only [List.foldl_cons]
  rw [foldl_fromBitsMSB]
  simp [fromBitsMSB]

theorem fromBitsMSB_lt (bs : List Bool) : fromBitsMSB bs < 2 ^ bs.length := by
  induction bs with
  | nil => simp [fromBitsMSB]
  | cons b t ih =>
    rw [fromBitsMSB_cons]
    simp only [List.length_cons, pow_succ]
    have hb : (if b then 1 else 0) ≤ 1 := by split <;> omega
    nlinarith [pow_pos (show 0 < 2 by omega) t.length]

theorem toBitsMSB_fromBitsMSB (bs : List Bool) :
    toBitsMSB bs.length (fromBitsMSB bs) = bs := by
  induction bs with
  | nil => rfl
  | cons b t ih =>
    have hlt := fromBitsMSB_lt t
    have h0 : 0 < 2 ^ t.length := pow_pos (by omega) _
    have hx : fromBitsMSB (b :: t) = (if b then 1 else 0) * 2 ^ t.length + fromBitsMSB t :=
      fromBitsMSB_cons b t
    simp only [List.length_cons, toBitsMSB, hx]
    have hdiv : ((if b then 1 else 0) * 2 ^ t.length + fromBitsMSB t) / 2 ^ t.length
        = (if b then 1 else 0) := by
      rw [Nat.mul_comm (if b then 1 else 0) (2 ^ t.length),
        Nat.mul_add_div h0, Nat.div_eq_of_lt hlt]
      omega
    have hmod : ((if b then 1 else 0) * 2 ^ t.length + fromBitsMSB t) % 2 ^ t.length
        = fromBitsMSB t % 2 ^ t.length := by
      rw [Nat.mul_comm (if b then 1 else 0) (2 ^ t.length), Nat.mul_add_mod]
    congr 1
    · rw [hdiv]
      cases b <;> simp
    · rw [toBitsMSB_congr t.length _ (fromBitsMSB t) hmod, ih]

/-! ## Byte packing of bitstreams (§4.2 step 7) -/

/-- One byte expanded into its eight bits, most significant first. -/
def byteToBits (b : Nat) : List Bool := toBitsMSB 8 b

/-- A byte sequence expanded into its bitstream. -/
def bytesToBits (bs : List Nat) : List Bool := (bs.map byteToBits).flatten

/-- A bit list padded with zero bits to length eight. -/
def padTo8 (bs : List Bool) : List Bool := bs ++ List.replicate (8 - bs.length) false

/-- Byte packing worker: `fuel` bounds the number of bytes produced and
is always called with at least the bit count. -/
def packBitsFuel : Nat → List Bool → List Nat
  | 0, _ => []
  | n + 1, bs =>
    if bs = [] then []
    else fromBitsMSB (padTo8 (bs.take 8)) :: packBitsFuel n (bs.drop 8)

/-- Modelled from the spec: pack a bitstream into bytes, padding the final
byte with zero bits (§4.2 step 7). -/
def packBits (bs : List Bool) : List Nat := packBitsFuel bs.length bs

/-! ## Compact variable-length count encoding (§4.2 step 7, §6)

Modelled from the spec: "a standard compact variable-length unsigned
integer encoding, at least 1 byte, growing with magnitude" — the
CompactSize encoding of the reference wire format. -/

/-- `n` little-endian bytes of a value. -/
def putLE : Nat → Nat → List Nat
  | 0, _ => []
  | n + 1, v => v % 256 :: putLE n (v / 256)

/-- Read `n` little-endian bytes; fails if the input is too short. -/
def getLE : Nat → List Nat → Option (Nat × List Nat)
  | 0, bs => some (0, bs)
  | _ + 1, [] => none
  | n + 1, b :: bs =>
    match getLE n bs with
    | none => none
    | some (v, rest) => some (b % 256 + 256 * v, rest)

/-- Modelled from the spec: the CompactSize encoding of a count. -/
def compactSize (n : Nat) : List Nat :=
  if n < 253 then [n]
  else if n < 2 ^ 16 then 253 :: putLE 2 n
  else if n < 2 ^ 32 then 254 :: putLE 4 n
  else 255 :: putLE 8 n

/-- Modelled from the spec: parse a CompactSize count from the head of a
byte sequence, rejecting truncated and non-minimal encodings. -/
def parseCompactSize : List Nat → Option (Nat × List Nat)
  | [] => none
  | b :: bs =>
    if b < 253 then some (b, bs)
    else if b = 253 then
      match getLE 2 bs with
      | none => none
      | some (v, rest) => if 253 ≤ v then some (v, rest) else none
    else if b = 254 then
      match getLE 4 bs with
      | none => none
      | some (v, rest) => if 2 ^ 16 ≤ v then some (v, rest) else none
    else if b = 255 then
      match getLE 8 bs with
      | none => none
      | some (v, rest) => if 2 ^ 32 ≤ v then some (v, rest) else none
    else none

/-! ## Golomb-Rice codec (§4.3) -/

/-- Modelled from the spec: Golomb-Rice encode `v` with parameter `P` —
`v >> P` one-bits, a zero-bit, then the low `P` bits of `v` (§4.3). -/
def riceEncode (P v : Nat) : List Bool :=
  List.replicate (v / 2 ^ P) true ++ false :: toBitsMSB P v

/-- Read the unary quotient: one-bits up to the first zero-bit.  Fails if
the bits are exhausted first (a unary run is bounded by the stream end). -/
def readUnary : List Bool → Option (Nat × List Bool)
  | [] => none
  | false :: bs => some (0, bs)
  | true :: bs =>
    match readUnary bs with
    | none => none
    | some (q, rest) => some (q + 1, rest)

/-- Read a fixed-width `P`-bit field; fails if fewer than `P` bits remain. -/
def readFixed (P : Nat) (bs : List Bool) : Option (Nat × List Bool) :=
  if P ≤ bs.length then some (fromBitsMSB (bs.take P), bs.drop P) else none

/-- Modelled from the spec: Golomb-Rice decode with parameter `P` —
read the unary quotient `q`, then `P` low bits, and reconstruct
`v = (q << P) | low_bits` (§4.3). -/
def riceDecode (P : Nat) (bs : List Bool) : Option (Nat × List Bool) :=
  match readUnary bs with
  | none => none
  | some (q, rest) =>
    match readFixed P rest with
    | none => none
    | some (r, rest2) => some (q * 2 ^ P + r, rest2)

/-! ## Delta encoding and cumulative decoding (§4.2, §4.4) -/

/-- Modelled from the spec: Golomb-Rice encode the deltas of a sorted
value sequence, starting from previous value `prev` (§4.2 steps 5-6). -/
def encodeDeltas (P : Nat) : Nat → List Nat → List Bool
  | _, [] => []
  | prev, v :: vs => riceEncode P (v - prev) ++ encodeDeltas P v vs

/-- Cumulative sums of a delta sequence, starting from `prev`. -/
def cumsum : Nat → List Nat → List Nat
  | _, [] => []
  | prev, d :: ds => (prev + d) :: cumsum (prev + d) ds

/-- Modelled from the spec: decode `n` Golomb-Rice deltas from a bitstream
into the running cumulative values (§4.4); fails if the bitstream is
exhausted before `n` values are produced. -/
def readValues (P : Nat) : Nat → Nat → List Bool → Option (List Nat × List Bool)
  | 0, _, bs => some ([], bs)
  | n + 1, prev, bs =>
    match riceDecode P bs with
    | none => none
    | some (d, rest) =>
      match readValues P n (prev + d) rest with
      | none => none
      | some (vs, rest2) => some ((prev + d) :: vs, rest2)

/-! ## Filter construction, decoding, queries (§4.2, §4.4-§4.6) -/

/-- The hashing modulus of a filter built from raw elements:
`N * M` with `N` the number of distinct byte-strings (§4.2 steps 1-2). -/
def buildModulus (params : FilterParams) (S : List (List Nat)) : Nat :=
  S.dedup.length * params.M

/-- The `hash_to_range` images of the distinct elements (§4.2 step 3). -/
def elementHashes (params : FilterParams) (S : List (List Nat)) : List Nat :=
  S.dedup.map (hashToRange params.k0 params.k1 (buildModulus params S))

/-- Modelled from the spec: the canonical pre-image of the bitstream —
the element hashes with exact duplicates collapsed, sorted ascending
(§3, §4.2 steps 3-4). -/
def hashedValues (params : FilterParams) (S : List (List Nat)) : List Nat :=
  List.insertionSort (fun a b => a ≤ b) (elementHashes params S).dedup

/-- Modelled from the spec: `build` — the encoded filter bytes for an
element collection: a CompactSize count of the distinct elements followed
by the packed Golomb-Rice coded deltas of the hashed values (§4.2). -/
def buildFilter (params : FilterParams) (S : List (List Nat)) : List Nat :=
  compactSize S.dedup.length ++ packBits (encodeDeltas params.P 0 (hashedValues params S))

/-- Re-encode a decoded `(N, values)` pair back to filter bytes (§3). -/
def encodeFromValues (P N : Nat) (vs : List Nat) : List Nat :=
  compactSize N ++ packBits (encodeDeltas P 0 vs)

/-- Modelled from the spec: `decode` — parse the CompactSize count `N`,
then read `N` cumulative Golomb-Rice values from the remaining bytes
(§4.4); any malformation yields `none`, never a partial sequence. -/
def decodeFilter (P : Nat) (bytes : List Nat) : Option (Nat × List Nat) :=
  match parseCompactSize bytes with
  | none => none
  | some (N, rest) =>
    match readValues P N 0 (bytesToBits rest) with
    | none => none
    | some (vs, _) => some (N, vs)

/-- Modelled from the spec: the single-query scan — walk the sorted
values, stop once a value is `≥ target`, return `true` iff it equals
`target` exactly (§4.5). -/
def matchScan (target : Nat) : List Nat → Bool
  | [] => false
  | v :: vs => if target ≤ v then target == v else matchScan target vs

/-- Modelled from the spec: `match` — hash the query element with modulus
`N * M` (`N` from the decoded header) and scan the decoded values (§4.5). -/
def matchFilter (params : FilterParams) (encoded : List Nat) (e : List Nat) : Bool :=
  match decodeFilter params.P encoded with
  | none => false
  | some (N, vs) => matchScan (hashToRange params.k0 params.k1 (N * params.M) e) vs

/-- Two-pointer merge worker: `fuel` bounds the number of comparison
steps and is always called with at least the summed lengths. -/
def merge2Fuel : Nat → List Nat → List Nat → Bool
  | 0, _, _ => false
  | _ + 1, [], _ => false
  | _ + 1, _ :: _, [] => false
  | n + 1, v :: vs, t :: ts =>
    if v = t then true
    else if v < t then merge2Fuel n vs (t :: ts)
    else merge2Fuel n (v :: vs) ts

/-- Modelled from the spec: the two-pointer merged scan of the batch query
— walk both sorted sequences, advancing whichever is behind, `true` on the
first equality, `false` when either is exhausted (§4.6). -/
def merge2 (vs ts : List Nat) : Bool :=
  merge2Fuel (vs.length + ts.length) vs ts

/-- Modelled from the spec: `match_any` — hash every query element, sort
the targets, and run the merged scan against the decoded values (§4.6). -/
def matchAnyFilter (params : FilterParams) (encoded : List Nat) (Q : List (List Nat)) : Bool :=
  match decodeFilter params.P encoded with
  | none => false
  | some (N, vs) =>
    merge2 vs (List.insertionSort (fun a b => a ≤ b)
      (Q.dedup.map (hashToRange params.k0 params.k1 (N * params.M))))

/-! ## The binding layer (`block_filter.cpp`, `block_filter.h`)

The `PYBlockFilter` wrapper holds an engine; its state is the engine's
immutable parameters and its exclusively-owned encoded byte buffer. -/

/-- The engine state owned by a `PYBlockFilter` instance. -/
structure GCSEngine where
  params : FilterParams
  encoded : List Nat
deriving Repr, DecidableEq

/-- The hard-coded construction parameters `{0, 0, 20, 1 << 20}` of
`block_filter.cpp`. -/
def basicParams : FilterParams := ⟨0, 0, 20, 2 ^ 20⟩

/-- `PYBlockFilter(std::vector<std::vector<unsigned char>>&)`: build a
filter over the element set with the hard-coded parameters. -/
def pyFromElements (hashes : List (List Nat)) : GCSEngine :=
  ⟨basicParams, buildFilter basicParams hashes⟩

/-- `PYBlockFilter(std::vector<unsigned char>&)`: adopt pre-existing
encoded bytes with the hard-coded parameters. -/
def pyFromEncoded (bytes : List Nat) : GCSEngine :=
  ⟨basicParams, bytes⟩

/-- Modelled from the spec: the per-block wrapper that pairs encoded
filter bytes with a block identifier; it re-exposes the same encoded
bytes to its caller (§6).  The `BlockFilter` type itself is not under the
source tree. -/
structure BlockFilterWrapper where
  blockHash : List Nat
  filterBytes : List Nat
deriving Repr, DecidableEq

/-- Modelled from the spec: the wrapper exposes the same bytes back (§6). -/
def wrapperGetEncoded (w : BlockFilterWrapper) : List Nat := w.filterBytes

/-- `PYBlockFilter(std::string&, std::vector<unsigned char>&)`: construct
via the per-block wrapper and re-adopt its re-exposed encoded bytes. -/
def pyFromBlockWrapper (blockHash : List Nat) (bytes : List Nat) : GCSEngine :=
  pyFromEncoded (wrapperGetEncoded ⟨blockHash, bytes⟩)

/-- `PYBlockFilter::GetEncoded`. -/
def engineGetEncoded (g : GCSEngine) : List Nat := g.encoded

/-- `PYBlockFilter::Match`. -/
def engineMatch (g : GCSEngine) (e : List Nat) : Bool :=
  matchFilter g.params g.encoded e

/-- `PYBlockFilter::MatchAny`. -/
def engineMatchAny (g : GCSEngine) (Q : List (List Nat)) : Bool :=
  matchAnyFilter g.params g.encoded Q

/-! ## Basic list facts used by the codec proofs -/

theorem take_len_append {α : Type} (l r : List α) : (l ++ r).take l.length = l := by
  induction l with
  | nil => rfl
  | cons a t ih => simp [ih]

theorem drop_len_append {α : Type} (l r : List α) : (l ++ r).drop l.length = r := by
  induction l with
  | nil => rfl
  | cons a t ih => simp [ih]

/-! ## CompactSize roundtrip -/

theorem Nat.mod_mul_eq_mod_add_mod_div_mod (v a b : Nat) :
    v % a + a * (v / a % b) = v % (a * b) := by
  rcases Nat.eq_zero_or_pos a with ha | ha
  · subst ha; simp
  rcases Nat.eq_zero_or_pos b with hb | hb
  · subst hb
    simp only [Nat.mul_zero, Nat.mod_zero]
    have h := Nat.div_add_mod v a
    omega
  have key : v = a * b * (v / a / b) + (v % a + a * (v / a % b)) := by
    have h1 := Nat.div_add_mod v a
    have h2 := Nat.div_add_mod (v / a) b
    calc v = a * (v / a) + v % a := by omega
      _ = a * (b * (v / a / b) + v / a % b) + v % a := by rw [h2]
      _ = a * b * (v / a / b) + (v % a + a * (v / a % b)) := by ring
  have hbound : v % a + a * (v / a % b) < a * b := by
    have h3 : v % a < a := Nat.mod_lt _ ha
    have h4 : v / a % b < b := Nat.mod_lt _ hb
    calc v % a + a * (v / a % b) < a + a * (v / a % b) := by omega
      _ ≤ a + a * (b - 1) := by
          have : v / a % b ≤ b - 1 := by omega
          nlinarith
      _ = a * b := by
          have : b = b - 1 + 1 := by omega
          nlinarith [this]
  calc v % a + a * (v / a % b)
      = (a * b * (v / a / b) + (v % a + a * (v / a % b))) % (a * b) := by
        rw [Nat.mul_add_mod, Nat.mod_eq_of_lt hbound]
    _ = v % (a * b) := by rw [← key]

theorem getLE_putLE (n : Nat) : ∀ (v : Nat) (rest : List Nat),
    getLE n (putLE n v ++ rest) = some (v % 256 ^ n, rest) := by
  induction n with
  | zero => intro v rest; simp [putLE, getLE, Nat.mod_one]
  | succ k ih =>
    intro v rest
    have hrw := ih (v / 256) rest
    simp only [putLE, List.cons_append, getLE, List.append_eq]
    rw [hrw]
    have h1 : v % 256 % 256 = v % 256 := Nat.mod_mod_of_dvd v (dvd_refl 256)
    have h2 : v % 256 + 256 * (v / 256 % 256 ^ k) = v % 256 ^ (k + 1) := by
      have hm := Nat.mod_mul_eq_mod_add_mod_div_mod v 256 (256 ^ k)
      rw [hm]
      congr 1
      ring
    simp [h1, h2]


theorem parseCompactSize_compactSize (n : Nat) (rest : List Nat) (hn : n < 2 ^ 64) :
    parseCompactSize (compactSize n ++ rest) = some (n, rest) := by
  unfold compactSize
  by_cases h1 : n < 253
  · simp [parseCompactSize, h1]
  · by_cases h2 : n < 2 ^ 16
    · rw [if_neg h1, if_pos h2]
      simp only [List.cons_append, parseCompactSize]
      rw [getLE_putLE]
      have hmod : n % 256 ^ 2 = n := Nat.mod_eq_of_lt (by omega)
      have hge : 253 ≤ n := by omega
      rw [hmod]
      simp [hge]
    · by_cases h3 : n < 2 ^ 32
      · rw [if_neg h1, if_neg h2, if_pos h3]
        simp only [List.cons_append, parseCompactSize]
        rw [getLE_putLE]
        have hmod : n % 256 ^ 4 = n := Nat.mod_eq_of_lt (by omega)
        have hge : 65536 ≤ n := by omega
        rw [hmod]
        simp [hge]
      · rw [if_neg h1, if_neg h2, if_neg h3]
        simp only [List.cons_append, parseCompactSize]
        rw [getLE_putLE]
        have hmod : n % 256 ^ 8 = n := Nat.mod_eq_of_lt (by omega)
        have hge : 4294967296 ≤ n := by omega
        rw [hmod]
        simp [hge]

/-! ## Byte packing roundtrip -/

theorem bytesToBits_cons (b : Nat) (l : List Nat) :
    bytesToBits (b :: l) = byteToBits b ++ bytesToBits l := by
  simp [bytesToBits]

theorem length_padTo8 (bs : List Bool) (h : bs.length ≤ 8) : (padTo8 bs).length = 8 := by
  simp [padTo8]
  omega

theorem byteToBits_fromBitsMSB (bs : List Bool) (h : bs.length = 8) :
    byteToBits (fromBitsMSB bs) = bs := by
  unfold byteToBits
  rw [← h, toBitsMSB_fromBitsMSB]

theorem packBits_nil : packBits [] = [] := rfl

/-- Unpacking the fuel-driven packing returns the bits plus zero padding,
whenever the fuel covers the bit count. -/
theorem bytesToBits_packBitsFuel : ∀ (n : Nat) (bs : List Bool), bs.length ≤ n →
    bytesToBits (packBitsFuel n bs)
      = bs ++ List.replicate ((8 - bs.length % 8) % 8) false := by
  intro n
  induction n with
  | zero =>
    intro bs hlen
    have hnil : bs = [] := List.eq_nil_of_length_eq_zero (by omega)
    subst hnil
    rfl
  | succ k ih =>
    intro bs hlen
    by_cases hne : bs = []
    · subst hne
      rfl
    · rw [packBitsFuel, if_neg hne, bytesToBits_cons]
      have htake : (bs.take 8).length ≤ 8 := by
        simp [List.length_take]
      rw [byteToBits_fromBitsMSB _ (length_padTo8 _ htake)]
      have hpos : 0 < bs.length := List.length_pos.mpr hne
      by_cases hle : bs.length ≤ 8
      · have hdrop : bs.drop 8 = [] := List.drop_eq_nil_of_le hle
        have htakeall : bs.take 8 = bs := List.take_of_length_le hle
        rw [hdrop, htakeall]
        have hfe : packBitsFuel k [] = [] := by
          cases k <;> rfl
        rw [hfe]
        have hb : bytesToBits [] = [] := rfl
        rw [hb, List.append_nil]
        unfold padTo8
        congr 2
        omega
      · have hlen8 : (bs.take 8).length = 8 := by
          simp [List.length_take]
          omega
        have hpad : padTo8 (bs.take 8) = bs.take 8 := by
          unfold padTo8
          rw [hlen8]
          simp
        have hdl : (bs.drop 8).length = bs.length - 8 := by simp
        rw [hpad, ih (bs.drop 8) (by omega)]
        rw [hdl]
        have hmod : (8 - (bs.length - 8) % 8) % 8 = (8 - bs.length % 8) % 8 := by omega
        rw [hmod, ← List.append_assoc, List.take_append_drop]

/-- Unpacking the packed bitstream returns the bits plus zero padding to
the next byte boundary. -/
theorem bytesToBits_packBits (bs : List Bool) :
    bytesToBits (packBits bs) = bs ++ List.replicate ((8 - bs.length % 8) % 8) false :=
  bytesToBits_packBitsFuel bs.length bs (Nat.le_refl _)

/-! ## Golomb-Rice codec lemmas -/

theorem readUnary_replicate (q : Nat) (rest : List Bool) :
    readUnary (List.replicate q true ++ false :: rest) = some (q, rest) := by
  induction q with
  | zero => simp [readUnary]
  | succ k ih => simp [List.replicate_succ, readUnary, ih]

theorem readFixed_exact (P : Nat) (bs rest : List Bool) (h : bs.length = P) :
    readFixed P (bs ++ rest) = some (fromBitsMSB bs, rest) := by
  unfold readFixed
  subst h
  rw [if_pos (by simp)]
  rw [take_len_append, drop_len_append]

theorem riceDecode_riceEncode (P v : Nat) (rest : List Bool) :
    riceDecode P (riceEncode P v ++ rest) = some (v, rest) := by
  have h1 : riceEncode P v ++ rest
      = List.replicate (v / 2 ^ P) true ++ false :: (toBitsMSB P v ++ rest) := by
    simp [riceEncode]
  rw [riceDecode, h1, readUnary_replicate]
  simp only [readFixed_exact P (toBitsMSB P v) rest (length_toBitsMSB P v),
    fromBitsMSB_toBitsMSB]
  rw [Nat.div_add_mod']

theorem readUnary_sound : ∀ (bs : List Bool) (q : Nat) (rest : List Bool),
    readUnary bs = some (q, rest) → bs = List.replicate q true ++ false :: rest := by
  intro bs
  induction bs with
  | nil => intro q rest h; simp [readUnary] at h
  | cons b t ih =>
    intro q rest h
    cases b with
    | false =>
      simp [readUnary] at h
      obtain ⟨hq, hr⟩ := h
      subst hq
      subst hr
      simp
    | true =>
      cases hr : readUnary t with
      | none => rw [readUnary, hr] at h; simp at h
      | some p =>
        obtain ⟨q2, r2⟩ := p
        rw [readUnary, hr] at h
        simp at h
        obtain ⟨hq, hrest⟩ := h
        rw [← hq, ← hrest, ih q2 r2 hr]
        simp [List.replicate_succ]

theorem readFixed_sound (P : Nat) (bs : List Bool) (r : Nat) (rest : List Bool)
    (h : readFixed P bs = some (r, rest)) :
    bs = toBitsMSB P r ++ rest ∧ r < 2 ^ P := by
  unfold readFixed at h
  by_cases hp : P ≤ bs.length
  · rw [if_pos hp] at h
    simp at h
    obtain ⟨hr, hrest⟩ := h
    have hlen : (bs.take P).length = P := by
      simp [List.length_take]
      omega
    constructor
    · have htb : toBitsMSB P r = bs.take P := by
        have h2 := toBitsMSB_fromBitsMSB (bs.take P)
        rw [hlen, hr] at h2
        exact h2
      rw [htb, ← hrest, List.take_append_drop]
    · rw [← hr]
      have h3 := fromBitsMSB_lt (bs.take P)
      rwa [hlen] at h3
  · rw [if_neg hp] at h
    simp at h

theorem riceDecode_sound (P : Nat) (bs : List Bool) (v : Nat) (rest : List Bool)
    (h : riceDecode P bs = some (v, rest)) : bs = riceEncode P v ++ rest := by
  unfold riceDecode at h
  cases hu : readUnary bs with
  | none =>
    simp only [hu] at h
    exact Option.noConfusion h
  | some p =>
    obtain ⟨q, r1⟩ := p
    simp only [hu] at h
    cases hf : readFixed P r1 with
    | none =>
      simp only [hf] at h
      exact Option.noConfusion h
    | some p2 =>
      obtain ⟨lo, r2⟩ := p2
      simp only [hf, Option.some.injEq, Prod.mk.injEq] at h
      obtain ⟨hv, hrest⟩ := h
      obtain ⟨hr1, hlt⟩ := readFixed_sound P r1 lo r2 hf
      have hcomm : q * 2 ^ P + lo = 2 ^ P * q + lo := by ring
      have hdiv : (q * 2 ^ P + lo) / 2 ^ P = q := by
        rw [hcomm, Nat.mul_add_div (pow_pos (by omega) P), Nat.div_eq_of_lt hlt,
          Nat.add_zero]
      have hmod : (q * 2 ^ P + lo) % 2 ^ P = lo % 2 ^ P := by
        rw [hcomm, Nat.mul_add_mod]
      have hbits : toBitsMSB P (q * 2 ^ P + lo) = toBitsMSB P lo :=
        toBitsMSB_congr P _ lo hmod
      rw [readUnary_sound bs q r1 hu, hr1, ← hv, ← hrest, riceEncode, hdiv, hbits]
      simp

/-! ## Delta/cumulative-sum lemmas -/

/-- The delta sequence of a value sequence relative to `prev` (§4.2 step 5). -/
def deltasOf : Nat → List Nat → List Nat
  | _, [] => []
  | prev, v :: vs => (v - prev) :: deltasOf v vs

theorem length_cumsum : ∀ (prev : Nat) (ds : List Nat),
    (cumsum prev ds).length = ds.length := by
  intro prev ds
  induction ds generalizing prev with
  | nil => rfl
  | cons d t ih => simp [cumsum, ih]

theorem length_deltasOf : ∀ (prev : Nat) (vs : List Nat),
    (deltasOf prev vs).length = vs.length := by
  intro prev vs
  induction vs generalizing prev with
  | nil => rfl
  | cons v t ih => simp [deltasOf, ih]

theorem cumsum_chain : ∀ (prev : Nat) (ds : List Nat),
    List.Chain (fun a b => a ≤ b) prev (cumsum prev ds) := by
  intro prev ds
  induction ds generalizing prev with
  | nil => exact List.Chain.nil
  | cons d t ih => exact List.Chain.cons (Nat.le_add_right prev d) (ih (prev + d))

theorem cumsum_deltasOf : ∀ (prev : Nat) (vs : List Nat),
    List.Chain (fun a b => a ≤ b) prev vs → cumsum prev (deltasOf prev vs) = vs := by
  intro prev vs
  induction vs generalizing prev with
  | nil => intro _; rfl
  | cons v t ih =>
    intro hch
    cases hch with
    | cons hle htail =>
      simp only [deltasOf, cumsum, Nat.add_sub_cancel' hle]
      rw [ih v htail]

theorem encodeDeltas_eq_flatten (P : Nat) : ∀ (prev : Nat) (vs : List Nat),
    encodeDeltas P prev vs = ((deltasOf prev vs).map (riceEncode P)).flatten := by
  intro prev vs
  induction vs generalizing prev with
  | nil => rfl
  | cons v t ih => simp [encodeDeltas, deltasOf, ih]

theorem readValues_complete (P : Nat) : ∀ (ds : List Nat) (prev : Nat) (rest : List Bool),
    readValues P ds.length prev ((ds.map (riceEncode P)).flatten ++ rest)
      = some (cumsum prev ds, rest) := by
  intro ds
  induction ds with
  | nil => intro prev rest; simp [readValues, cumsum]
  | cons d t ih =>
    intro prev rest
    have hsplit : ((d :: t).map (riceEncode P)).flatten ++ rest
        = riceEncode P d ++ ((t.map (riceEncode P)).flatten ++ rest) := by
      simp
    rw [List.length_cons, hsplit, readValues]
    simp only [riceDecode_riceEncode, ih (prev + d) rest]
    rfl

theorem readValues_encodeDeltas (P : Nat) (prev : Nat) (vs : List Nat) (rest : List Bool)
    (hch : List.Chain (fun a b => a ≤ b) prev vs) :
    readValues P vs.length prev (encodeDeltas P prev vs ++ rest) = some (vs, rest) := by
  rw [encodeDeltas_eq_flatten, ← length_deltasOf prev vs,
    readValues_complete P (deltasOf prev vs) prev rest, cumsum_deltasOf prev vs hch]

theorem readValues_sound (P : Nat) : ∀ (n prev : Nat) (bs : List Bool) (vs : List Nat)
    (rest : List Bool), readValues P n prev bs = some (vs, rest) →
    ∃ ds : List Nat, ds.length = n ∧ vs = cumsum prev ds
      ∧ bs = (ds.map (riceEncode P)).flatten ++ rest := by
  intro n
  induction n with
  | zero =>
    intro prev bs vs rest h
    simp [readValues] at h
    obtain ⟨hvs, hrest⟩ := h
    subst hvs
    subst hrest
    exact ⟨[], rfl, rfl, by simp⟩
  | succ k ih =>
    intro prev bs vs rest h
    rw [readValues] at h
    cases hd : riceDecode P bs with
    | none =>
      simp only [hd] at h
      exact Option.noConfusion h
    | some p =>
      obtain ⟨d, r1⟩ := p
      simp only [hd] at h
      cases hv : readValues P k (prev + d) r1 with
      | none =>
        simp only [hv] at h
        exact Option.noConfusion h
      | some p2 =>
        obtain ⟨vs2, r2⟩ := p2
        simp only [hv, Option.some.injEq, Prod.mk.injEq] at h
        obtain ⟨hvs, hrest⟩ := h
        obtain ⟨ds2, hlen, hcs, hbits⟩ := ih (prev + d) r1 vs2 r2 hv
        refine ⟨d :: ds2, by simp [hlen], ?_, ?_⟩
        · rw [← hvs, cumsum, hcs]
        · rw [riceDecode_sound P bs d r1 hd, hbits, ← hrest]
          simp

/-! ## Properties of the canonical hashed-value sequence -/

instance : IsTrans Nat (fun a b => a ≤ b) := ⟨fun _ _ _ h1 h2 => Nat.le_trans h1 h2⟩

instance : IsTotal Nat (fun a b => a ≤ b) := ⟨fun a b => Nat.le_total a b⟩

theorem sorted_hashedValues (params : FilterParams) (S : List (List Nat)) :
    (hashedValues params S).Sorted (fun a b => a ≤ b) :=
  List.sorted_insertionSort _ _

theorem nodup_hashedValues (params : FilterParams) (S : List (List Nat)) :
    (hashedValues params S).Nodup :=
  (List.perm_insertionSort _ _).nodup_iff.mpr (List.nodup_dedup _)

theorem mem_hashedValues (params : FilterParams) (S : List (List Nat)) (x : Nat) :
    x ∈ hashedValues params S
      ↔ ∃ e, e ∈ S ∧ hashToRange params.k0 params.k1 (buildModulus params S) e = x := by
  unfold hashedValues
  rw [(List.perm_insertionSort _ _).mem_iff, List.mem_dedup]
  unfold elementHashes
  simp [List.mem_map, List.mem_dedup]

theorem length_hashedValues (params : FilterParams) (S : List (List Nat))
    (hcol : (elementHashes params S).Nodup) :
    (hashedValues params S).length = S.dedup.length := by
  unfold hashedValues
  rw [(List.perm_insertionSort _ _).length_eq, List.dedup_eq_self.mpr hcol]
  unfold elementHashes
  simp

theorem chain_zero_of_sorted (vs : List Nat) (h : vs.Sorted (fun a b => a ≤ b)) :
    List.Chain (fun a b => a ≤ b) 0 vs := by
  rw [List.chain_iff_pairwise]
  exact List.pairwise_cons.mpr ⟨fun b _ => Nat.zero_le b, h⟩

/-- Decoding a filter built from elements succeeds and recovers the
canonical hashed-value sequence, provided the element hashes collide
nowhere (so the value count equals the header count). -/
theorem decodeFilter_buildFilter (params : FilterParams) (S : List (List Nat))
    (hN : S.dedup.length < 2 ^ 64)
    (hcol : (elementHashes params S).Nodup) :
    decodeFilter params.P (buildFilter params S)
      = some (S.dedup.length, hashedValues params S) := by
  unfold buildFilter decodeFilter
  simp only [parseCompactSize_compactSize _ _ hN, bytesToBits_packBits]
  rw [← length_hashedValues params S hcol]
  have hch := chain_zero_of_sorted _ (sorted_hashedValues params S)
  have hrv := readValues_encodeDeltas params.P 0 (hashedValues params S)
    (List.replicate ((8 - (encodeDeltas params.P 0 (hashedValues params S)).length % 8) % 8)
      false) hch
  simp only [hrv]

/-! ## Characterization of decoding success -/

theorem decodeFilter_some_iff (P : Nat) (bytes : List Nat) (N : Nat) (vs : List Nat) :
    decodeFilter P bytes = some (N, vs)
      ↔ ∃ rest ds junk, parseCompactSize bytes = some (N, rest)
          ∧ ds.length = N ∧ vs = cumsum 0 ds
          ∧ bytesToBits rest = (ds.map (riceEncode P)).flatten ++ junk := by
  constructor
  · intro h
    unfold decodeFilter at h
    cases hp : parseCompactSize bytes with
    | none =>
      simp only [hp] at h
      exact Option.noConfusion h
    | some p =>
      obtain ⟨N2, rest⟩ := p
      simp only [hp] at h
      cases hv : readValues P N2 0 (bytesToBits rest) with
      | none =>
        simp only [hv] at h
        exact Option.noConfusion h
      | some p2 =>
        obtain ⟨vs2, junk⟩ := p2
        simp only [hv, Option.some.injEq, Prod.mk.injEq] at h
        obtain ⟨hN2, hvs⟩ := h
        subst hN2
        obtain ⟨ds, hlen, hcs, hbits⟩ := readValues_sound P N2 0 (bytesToBits rest) vs2 junk hv
        exact ⟨rest, ds, junk, rfl, hlen, by rw [← hvs, hcs], hbits⟩
  · rintro ⟨rest, ds, junk, hp, hlen, hcs, hbits⟩
    unfold decodeFilter
    simp only [hp]
    rw [hbits, ← hlen]
    simp only [readValues_complete P ds 0 junk]
    rw [hcs]

theorem decodeFilter_sorted (P : Nat) (bytes : List Nat) (N : Nat) (vs : List Nat)
    (h : decodeFilter P bytes = some (N, vs)) : vs.Sorted (fun a b => a ≤ b) := by
  rw [decodeFilter_some_iff] at h
  obtain ⟨rest, ds, junk, _, _, hcs, _⟩ := h
  subst hcs
  exact (List.chain_iff_pairwise.mp (cumsum_chain 0 ds)).of_cons

theorem decodeFilter_length (P : Nat) (bytes : List Nat) (N : Nat) (vs : List Nat)
    (h : decodeFilter P bytes = some (N, vs)) : vs.length = N := by
  rw [decodeFilter_some_iff] at h
  obtain ⟨rest, ds, junk, _, hlen, hcs, _⟩ := h
  subst hcs
  rw [length_cumsum, hlen]

/-! ## Query scan lemmas -/

theorem matchScan_mem (t : Nat) : ∀ (vs : List Nat), vs.Sorted (fun a b => a ≤ b) →
    (matchScan t vs = true ↔ t ∈ vs) := by
  intro vs
  induction vs with
  | nil =>
    intro _
    simp [matchScan]
  | cons v tl ih =>
    intro hs
    by_cases hle : t ≤ v
    · simp only [matchScan, if_pos hle]
      rw [beq_iff_eq, List.mem_cons]
      constructor
      · intro h
        exact Or.inl h
      · rintro (h | h)
        · exact h
        · have hvt := List.rel_of_sorted_cons hs t h
          omega
    · simp only [matchScan, if_neg hle]
      rw [ih hs.of_cons, List.mem_cons]
      constructor
      · intro h
        exact Or.inr h
      · rintro (h | h)
        · omega
        · exact h

theorem merge2Fuel_spec : ∀ (n : Nat) (vs ts : List Nat), vs.length + ts.length ≤ n →
    vs.Sorted (fun a b => a ≤ b) → ts.Sorted (fun a b => a ≤ b) →
    (merge2Fuel n vs ts = true ↔ ∃ x, x ∈ vs ∧ x ∈ ts) := by
  intro n
  induction n with
  | zero =>
    intro vs ts hlen _ _
    have hv : vs = [] := List.eq_nil_of_length_eq_zero (by omega)
    subst hv
    simp [merge2Fuel]
  | succ k ih =>
    intro vs ts hlen hsv hst
    cases vs with
    | nil => simp [merge2Fuel]
    | cons v vs =>
      cases ts with
      | nil => simp [merge2Fuel]
      | cons t ts =>
        by_cases heq : v = t
        · subst heq
          simp only [merge2Fuel, if_pos rfl]
          constructor
          · intro _
            exact ⟨v, List.mem_cons_self v vs, List.mem_cons_self v ts⟩
          · intro _
            rfl
        · by_cases hlt : v < t
          · simp only [merge2Fuel, if_neg heq, if_pos hlt]
            have hlen2 : vs.length + (t :: ts).length ≤ k := by
              simp only [List.length_cons] at hlen ⊢
              omega
            rw [ih vs (t :: ts) hlen2 hsv.of_cons hst]
            constructor
            · rintro ⟨x, hx1, hx2⟩
              exact ⟨x, List.mem_cons_of_mem v hx1, hx2⟩
            · rintro ⟨x, hx1, hx2⟩
              rcases List.mem_cons.mp hx1 with rfl | hx1t
              · rcases List.mem_cons.mp hx2 with h | h
                · omega
                · have := List.rel_of_sorted_cons hst x h
                  omega
              · exact ⟨x, hx1t, hx2⟩
          · simp only [merge2Fuel, if_neg heq, if_neg hlt]
            have hlen2 : (v :: vs).length + ts.length ≤ k := by
              simp only [List.length_cons] at hlen ⊢
              omega
            rw [ih (v :: vs) ts hlen2 hsv hst.of_cons]
            constructor
            · rintro ⟨x, hx1, hx2⟩
              exact ⟨x, hx1, List.mem_cons_of_mem t hx2⟩
            · rintro ⟨x, hx1, hx2⟩
              rcases List.mem_cons.mp hx2 with rfl | hx2t
              · rcases List.mem_cons.mp hx1 with h | h
                · omega
                · have := List.rel_of_sorted_cons hsv x h
                  omega
              · exact ⟨x, hx1, hx2t⟩

theorem merge2_spec (vs ts : List Nat) (hsv : vs.Sorted (fun a b => a ≤ b))
    (hst : ts.Sorted (fun a b => a ≤ b)) :
    (merge2 vs ts = true ↔ ∃ x, x ∈ vs ∧ x ∈ ts) :=
  merge2Fuel_spec (vs.length + ts.length) vs ts (Nat.le_refl _) hsv hst

/-! ## Auxiliary facts for the hash range bound -/

theorem sipHash_lt (k0 k1 : Nat) (m : List Nat) : sipHash k0 k1 m < 2 ^ 64 := by
  unfold sipHash
  exact Nat.mod_lt _ (pow_pos (by omega) 64)

/-! ## Claim theorems -/

/-- C1 (amended): for a finite set of distinct byte-strings whose
`hash_to_range` values are pairwise distinct (no hash collisions) and a
64-bit-representable element count, decoding the built filter yields
exactly the sorted deduplicated hashed-value sequence, and re-encoding
that decoded sequence reproduces the encoded bytes byte-identically. -/
theorem build_decode_roundtrip (params : FilterParams) (S : List (List Nat))
    (hval : params.Valid) (hN : S.dedup.length < 2 ^ 64)
    (hcol : (elementHashes params S).Nodup) :
    decodeFilter params.P (buildFilter params S)
        = some (S.dedup.length, hashedValues params S)
      ∧ encodeFromValues params.P S.dedup.length (hashedValues params S)
        = buildFilter params S :=
  ⟨decodeFilter_buildFilter params S hN hcol, rfl⟩

theorem build_decode_roundtrip_witness :
    (FilterParams.mk 0 0 2 2).Valid
      ∧ ([[0], [1]] : List (List Nat)).dedup.length < 2 ^ 64
      ∧ (elementHashes (FilterParams.mk 0 0 2 2) [[0], [1]]).Nodup
      ∧ (decodeFilter (FilterParams.mk 0 0 2 2).P
            (buildFilter (FilterParams.mk 0 0 2 2) [[0], [1]])
          = some (([[0], [1]] : List (List Nat)).dedup.length,
              hashedValues (FilterParams.mk 0 0 2 2) [[0], [1]])
        ∧ encodeFromValues (FilterParams.mk 0 0 2 2).P
            ([[0], [1]] : List (List Nat)).dedup.length
            (hashedValues (FilterParams.mk 0 0 2 2) [[0], [1]])
          = buildFilter (FilterParams.mk 0 0 2 2) [[0], [1]]) :=
  ⟨by decide, by decide, by decide,
    build_decode_roundtrip (FilterParams.mk 0 0 2 2) [[0], [1]]
      (by decide) (by decide) (by decide)⟩

/-- C1 counterexample: with valid parameters `P = 8`, `M = 1` and the two
distinct byte-strings `[0]` and `[3]`, whose `hash_to_range` values
collide, deduplication makes the bitstream one entry short of the count
header and decoding the built filter fails outright, so it does not yield
the hashed-value sequence of the elements. -/
theorem build_decode_roundtrip_cex :
    (FilterParams.mk 0 0 8 1).Valid
      ∧ decodeFilter (FilterParams.mk 0 0 8 1).P
          (buildFilter (FilterParams.mk 0 0 8 1) [[0], [3]]) = none := by
  decide

/-- C2 (amended): provided the elements' `hash_to_range` values are
pairwise distinct (no hash collisions) and the element count is 64-bit
representable, `match` returns `true` for every element of the built set:
no false negatives. -/
theorem match_no_false_negatives (params : FilterParams) (S : List (List Nat))
    (e : List Nat) (hval : params.Valid) (hN : S.dedup.length < 2 ^ 64)
    (hcol : (elementHashes params S).Nodup) (he : e ∈ S) :
    matchFilter params (buildFilter params S) e = true := by
  unfold matchFilter
  simp only [decodeFilter_buildFilter params S hN hcol]
  rw [matchScan_mem _ _ (sorted_hashedValues params S)]
  exact (mem_hashedValues params S _).mpr ⟨e, he, rfl⟩

theorem match_no_false_negatives_witness :
    (FilterParams.mk 0 0 2 2).Valid
      ∧ ([[0], [1]] : List (List Nat)).dedup.length < 2 ^ 64
      ∧ (elementHashes (FilterParams.mk 0 0 2 2) [[0], [1]]).Nodup
      ∧ ([0] ∈ ([[0], [1]] : List (List Nat)))
      ∧ matchFilter (FilterParams.mk 0 0 2 2)
          (buildFilter (FilterParams.mk 0 0 2 2) [[0], [1]]) [0] = true :=
  ⟨by decide, by decide, by decide, by decide,
    match_no_false_negatives (FilterParams.mk 0 0 2 2) [[0], [1]] [0]
      (by decide) (by decide) (by decide) (by decide)⟩

/-- C2 counterexample: with valid parameters `P = 8`, `M = 1`, the
byte-strings `[0]` and `[3]` hash to the same value; after deduplication
the encoded filter decodes to fewer than `N` values, decoding fails, and
`match` returns `false` for the inserted element `[0]` — a false
negative. -/
theorem match_no_false_negatives_cex :
    (FilterParams.mk 0 0 8 1).Valid
      ∧ ([0] ∈ ([[0], [3]] : List (List Nat)))
      ∧ matchFilter (FilterParams.mk 0 0 8 1)
          (buildFilter (FilterParams.mk 0 0 8 1) [[0], [3]]) [0] = false := by
  decide

/-- C3: on a well-formed encoded filter, `match` computes the target
`hash_to_range(query, k0, k1, N*M)` and runs the early-exit cumulative
scan over the decoded values; the scan stops at the first value `≥`
target and answers `true` exactly when the target value occurs in the
decoded sorted sequence. -/
theorem match_scan_semantics (params : FilterParams) (encoded : List Nat)
    (e : List Nat) (N : Nat) (vs : List Nat)
    (hdec : decodeFilter params.P encoded = some (N, vs)) :
    matchFilter params encoded e
        = matchScan (hashToRange params.k0 params.k1 (N * params.M) e) vs
      ∧ (matchFilter params encoded e = true
          ↔ hashToRange params.k0 params.k1 (N * params.M) e ∈ vs) := by
  have h1 : matchFilter params encoded e
      = matchScan (hashToRange params.k0 params.k1 (N * params.M) e) vs := by
    unfold matchFilter
    simp only [hdec]
  refine ⟨h1, ?_⟩
  rw [h1, matchScan_mem _ _ (decodeFilter_sorted params.P encoded N vs hdec)]

theorem match_scan_semantics_witness :
    decodeFilter (FilterParams.mk 0 0 1 1).P [1, 0] = some (1, [0])
      ∧ (matchFilter (FilterParams.mk 0 0 1 1) [1, 0] [5]
            = matchScan (hashToRange 0 0 (1 * 1) [5]) [0]
        ∧ (matchFilter (FilterParams.mk 0 0 1 1) [1, 0] [5] = true
            ↔ hashToRange 0 0 (1 * 1) [5] ∈ [0])) :=
  ⟨by decide, match_scan_semantics (FilterParams.mk 0 0 1 1) [1, 0] [5] 1 [0] (by decide)⟩

/-- C4: on a well-formed encoded filter, the two-pointer merged batch
scan of `match_any` answers `true` exactly when some query element would
match individually: `match_any` is extensionally the disjunction of
per-element `match`. -/
theorem matchAny_equiv (params : FilterParams) (encoded : List Nat)
    (Q : List (List Nat)) (N : Nat) (vs : List Nat)
    (hdec : decodeFilter params.P encoded = some (N, vs)) :
    (matchAnyFilter params encoded Q = true
      ↔ ∃ q, q ∈ Q ∧ matchFilter params encoded q = true) := by
  have hsv := decodeFilter_sorted params.P encoded N vs hdec
  have hst : (List.insertionSort (fun a b => a ≤ b)
      (Q.dedup.map (hashToRange params.k0 params.k1 (N * params.M)))).Sorted
        (fun a b => a ≤ b) :=
    List.sorted_insertionSort _ _
  unfold matchAnyFilter
  simp only [hdec]
  rw [merge2_spec vs _ hsv hst]
  constructor
  · rintro ⟨x, hxv, hxt⟩
    rw [(List.perm_insertionSort _ _).mem_iff] at hxt
    obtain ⟨q, hq, hqx⟩ := List.mem_map.mp hxt
    refine ⟨q, List.mem_dedup.mp hq, ?_⟩
    unfold matchFilter
    simp only [hdec]
    rw [matchScan_mem _ _ hsv, hqx]
    exact hxv
  · rintro ⟨q, hq, hmq⟩
    unfold matchFilter at hmq
    simp only [hdec] at hmq
    rw [matchScan_mem _ _ hsv] at hmq
    refine ⟨hashToRange params.k0 params.k1 (N * params.M) q, hmq, ?_⟩
    rw [(List.perm_insertionSort _ _).mem_iff]
    exact List.mem_map.mpr ⟨q, List.mem_dedup.mpr hq, rfl⟩

theorem matchAny_equiv_witness :
    decodeFilter (FilterParams.mk 0 0 1 1).P [1, 0] = some (1, [0])
      ∧ (matchAnyFilter (FilterParams.mk 0 0 1 1) [1, 0] [[5]] = true
          ↔ ∃ q, q ∈ ([[5]] : List (List Nat))
              ∧ matchFilter (FilterParams.mk 0 0 1 1) [1, 0] q = true) :=
  ⟨by decide, matchAny_equiv (FilterParams.mk 0 0 1 1) [1, 0] [[5]] 1 [0] (by decide)⟩

/-- C5: the Golomb-Rice codec is a bijection on codes: for every
parameter `P ≤ 32` and every value, decoding the encoding (with any
trailing bits) returns the value and the trailing bits exactly. -/
theorem rice_bijection (P v : Nat) (rest : List Bool) (hP : P ≤ 32) :
    riceDecode P (riceEncode P v ++ rest) = some (v, rest) :=
  riceDecode_riceEncode P v rest

theorem rice_bijection_witness :
    20 ≤ 32 ∧ riceDecode 20 (riceEncode 20 123456 ++ []) = some (123456, []) :=
  ⟨by decide, rice_bijection 20 123456 [] (by decide)⟩

/-- C6 (amended): `hash_to_range` is a total function computing the exact
multiply-high-bits reduction `(hash * modulus) >> 64` over unbounded
integers — not `hash % modulus` — and for every modulus `≥ 1` its result
lies in `[0, modulus)`.  (For modulus `0` the result is `0`, which lies in
no range `[0, 0)`.) -/
theorem hashToRange_reduction (k0 k1 m : Nat) (e : List Nat) (hm : 1 ≤ m) :
    hashToRange k0 k1 m e = sipHash k0 k1 e * m / 2 ^ 64
      ∧ hashToRange k0 k1 m e < m := by
  refine ⟨rfl, ?_⟩
  unfold hashToRange
  apply Nat.div_lt_of_lt_mul
  exact mul_lt_mul_of_pos_right (sipHash_lt k0 k1 e) (by omega)

theorem hashToRange_reduction_witness :
    1 ≤ 4 ∧ (hashToRange 0 0 4 [0] = sipHash 0 0 [0] * 4 / 2 ^ 64
      ∧ hashToRange 0 0 4 [0] < 4) :=
  ⟨by decide, hashToRange_reduction 0 0 4 [0] (by decide)⟩

/-- C6 counterexample: the claim quantifies over every modulus, but at
modulus `0` the result is `0`, which does not lie in the empty range
`[0, 0)`. -/
theorem hashToRange_reduction_cex :
    hashToRange 0 0 0 [] = 0 ∧ ¬ hashToRange 0 0 0 [] < 0 := by
  decide

/-- C7: decoding succeeds with `some (N, vs)` exactly when the input is
well-formed — the CompactSize count header parses to `N` and the
remaining bitstream starts with `N` complete Golomb-Rice codes — and then
`vs` is exactly the `N` cumulative sums (never a partial or wrong
sequence); all malformations (unparseable header, exhausted bitstream,
unary run hitting the end of input) yield `none`. -/
theorem decode_error_characterization (P : Nat) (bytes : List Nat)
    (N : Nat) (vs : List Nat) :
    decodeFilter P bytes = some (N, vs)
      ↔ (vs.length = N ∧ ∃ rest ds junk,
          parseCompactSize bytes = some (N, rest)
          ∧ ds.length = N ∧ vs = cumsum 0 ds
          ∧ bytesToBits rest = (ds.map (riceEncode P)).flatten ++ junk) := by
  constructor
  · intro h
    exact ⟨decodeFilter_length P bytes N vs h, (decodeFilter_some_iff P bytes N vs).mp h⟩
  · rintro ⟨_, hex⟩
    exact (decodeFilter_some_iff P bytes N vs).mpr hex

/-- C8: the bitstream of a built filter delta-encodes a sorted,
duplicate-free value sequence whose members are exactly the
`hash_to_range` images of the input elements: two distinct elements
colliding to the same hashed value contribute a single entry, and this
deduplicated sorted sequence is the canonical pre-image of the
bitstream. -/
theorem build_dedups_collisions (params : FilterParams) (S : List (List Nat)) :
    ∃ vs : List Nat,
      buildFilter params S
          = compactSize S.dedup.length ++ packBits (encodeDeltas params.P 0 vs)
        ∧ vs.Nodup
        ∧ vs.Sorted (fun a b => a ≤ b)
        ∧ ∀ x : Nat, (x ∈ vs ↔ ∃ e, e ∈ S
            ∧ hashToRange params.k0 params.k1 (buildModulus params S) e = x) :=
  ⟨hashedValues params S, rfl, nodup_hashedValues params S,
    sorted_hashedValues params S, fun x => mem_hashedValues params S x⟩

/-- C9: the three construction paths of the binding — from a raw element
set, from pre-existing encoded bytes, and via the per-block wrapper's
re-exposed encoded bytes — produce engines in the same canonical state
whenever applied to matching data, so `GetEncoded`, `Match` and
`MatchAny` agree on every query. -/
theorem construction_paths_equivalent (S : List (List Nat)) (h : List Nat)
    (bytes : List Nat) (hb : bytes = buildFilter basicParams S) :
    pyFromElements S = pyFromEncoded bytes
      ∧ pyFromEncoded bytes = pyFromBlockWrapper h bytes
      ∧ engineGetEncoded (pyFromElements S) = engineGetEncoded (pyFromBlockWrapper h bytes)
      ∧ (∀ q : List Nat,
          engineMatch (pyFromElements S) q = engineMatch (pyFromEncoded bytes) q
            ∧ engineMatch (pyFromEncoded bytes) q = engineMatch (pyFromBlockWrapper h bytes) q)
      ∧ (∀ Q : List (List Nat),
          engineMatchAny (pyFromElements S) Q = engineMatchAny (pyFromEncoded bytes) Q
            ∧ engineMatchAny (pyFromEncoded bytes) Q
              = engineMatchAny (pyFromBlockWrapper h bytes) Q) := by
  subst hb
  exact ⟨rfl, rfl, rfl, fun q => ⟨rfl, rfl⟩, fun Q => ⟨rfl, rfl⟩⟩

theorem construction_paths_equivalent_witness :
    ([0] : List Nat) = buildFilter basicParams []
      ∧ (pyFromElements [] = pyFromEncoded [0]
        ∧ pyFromEncoded [0] = pyFromBlockWrapper [7] [0]
        ∧ engineGetEncoded (pyFromElements []) = engineGetEncoded (pyFromBlockWrapper [7] [0])
        ∧ (∀ q : List Nat,
            engineMatch (pyFromElements []) q = engineMatch (pyFromEncoded [0]) q
              ∧ engineMatch (pyFromEncoded [0]) q = engineMatch (pyFromBlockWrapper [7] [0]) q)
        ∧ (∀ Q : List (List Nat),
            engineMatchAny (pyFromElements []) Q = engineMatchAny (pyFromEncoded [0]) Q
              ∧ engineMatchAny (pyFromEncoded [0]) Q
                = engineMatchAny (pyFromBlockWrapper [7] [0]) Q)) :=
  ⟨by decide, construction_paths_equivalent [] [7] [0] (by decide)⟩

/-- C10: both exposed constructors of the binding hard-code the filter
parameters `k0 = 0`, `k1 = 0`, `P = 20`, `M = 2^20 = 1 << 20`; a
constructed engine carries exactly these parameters, the pure query
operations never alter them, and engines built from equal inputs are
equal. -/
theorem binding_params_fixed (S : List (List Nat)) (bytes : List Nat) :
    (pyFromElements S).params = FilterParams.mk 0 0 20 (2 ^ 20)
      ∧ (pyFromEncoded bytes).params = FilterParams.mk 0 0 20 (2 ^ 20)
      ∧ (pyFromElements S).params = basicParams
      ∧ (pyFromEncoded bytes).params = basicParams
      ∧ basicParams.M = 1 <<< 20 :=
  ⟨rfl, rfl, rfl, rfl, by decide⟩
